import Mathlib

/-!
Verification of the PGExplainer implementation
(`src/ExplanationEvaluation/explainers/PGExplainer.py`).

Tensors are embedded as lists of real numbers, a graph as the two parallel
lists of edge endpoints (`rows` = source indices, `cols` = target indices),
and a fallible computation (one that raises in Python, such as an index out
of range or a division by zero) as an `Option`.  Randomness is made explicit:
training-mode sampling receives the drawn uniform noise as an argument.
-/

namespace PGExplainer

/-- The logistic function, `torch.sigmoid`. -/
noncomputable def sigmoid (x : ℝ) : ℝ := 1 / (1 + Real.exp (-x))

/-- The noise transform applied to one uniform draw `u` in `_sample_graph`
(line 84): with `b = bias + 0.0001`, `eps = (b - (1 - b)) * u + (1 - b)`. -/
noncomputable def epsOf (bias u : ℝ) : ℝ :=
  ((bias + 0.0001) - (1 - (bias + 0.0001))) * u + (1 - (bias + 0.0001))

/-- `PGExplainer._sample_graph` (lines 73-90).  `noise` is the tensor
returned by `torch.rand(sampling_weights.size())`, passed in explicitly. -/
noncomputable def sample_graph (sampling_weights : List ℝ) (temperature : ℝ)
    (bias : ℝ) (noise : List ℝ) (training : Bool) : List ℝ :=
  if training then
    let eps := noise.map (epsOf bias)
    let gate_inputs := eps.map (fun e => Real.log e - Real.log (1 - e))
    let gates := List.zipWith (fun g w => (g + w) / temperature) gate_inputs sampling_weights
    gates.map sigmoid
  else
    sampling_weights.map sigmoid

/-- `PGExplainer._create_explainer_input` (lines 51-70).  `rows`/`cols` are
`pair[0]`/`pair[1]`, `embeds` the node-embedding matrix, `node_id` the node
being explained (unused for graph tasks). -/
def create_explainer_input (isNode : Bool) (rows cols : List ℕ)
    (embeds : List (List ℝ)) (node_id : ℕ) : List (List ℝ) :=
  let row_embeds := rows.map (fun i => embeds.getD i [])
  let col_embeds := cols.map (fun i => embeds.getD i [])
  if isNode then
    List.zipWith (fun a b => a ++ b ++ embeds.getD node_id []) row_embeds col_embeds
  else
    List.zipWith (fun a b => a ++ b) row_embeds col_embeds

/-- Index of the first maximal entry, `torch.argmax`. -/
noncomputable def argmaxIdx (l : List ℝ) : ℕ :=
  (l.enum.foldl (fun best p => if best.2 < p.2 then p else best) (0, l.getD 0 0)).1

/-- `torch.nn.functional.cross_entropy` on a single prediction row with a
class-index target: the negative log-softmax of the target entry. -/
noncomputable def cross_entropy (pred : List ℝ) (target : ℕ) : ℝ :=
  -(pred.getD target 0 - Real.log ((pred.map Real.exp).sum))

/-- `PGExplainer._loss` (lines 93-113): returns the triple
`(cce_loss, size_loss, mask_ent_loss)`. -/
noncomputable def loss_terms (masked_pred : List ℝ) (original_pred_class : ℕ)
    (mask : List ℝ) (size_reg entropy_reg : ℝ) : ℝ × ℝ × ℝ :=
  let size_loss := mask.sum * size_reg
  let mask_ent_reg := mask.map (fun m => -m * Real.log m - (1 - m) * Real.log (1 - m))
  let mask_ent_loss := entropy_reg * (mask_ent_reg.sum / mask_ent_reg.length)
  let cce_loss := cross_entropy masked_pred original_pred_class
  (cce_loss, size_loss, mask_ent_loss)

/-- The grouping loop of `PGExplainer._connectivity_loss` (lines 118-128):
walks the edge list, cutting a new group whenever the source index changes;
the group being built when the loop ends is dropped (never appended). -/
def connGroupsAux (start_node : ℕ) (adjacent_masks : List ℝ)
    (acc : List (List ℝ)) : List (ℕ × ℝ) → List (List ℝ)
  | [] => acc
  | (s, m) :: rest =>
    if start_node ≠ s then connGroupsAux s [m] (acc ++ [adjacent_masks]) rest
    else connGroupsAux start_node (adjacent_masks ++ [m]) acc rest

/-- `total_mask_score` as computed by `_connectivity_loss`; `sources` is
`graph[0]`.  The initial `start_node` is `graph[0][0]`. -/
def connGroups (sources : List ℕ) (mask : List ℝ) : List (List ℝ) :=
  match sources with
  | [] => []
  | s0 :: _ => connGroupsAux s0 [] [] (sources.zip mask)

/-- `torch.combinations(⬝, r=2)`: all ordered pairs `(xᵢ, xⱼ)` with `i < j`. -/
def pairsOf : List ℝ → List (ℝ × ℝ)
  | [] => []
  | x :: xs => xs.map (fun y => (x, y)) ++ pairsOf xs

/-- The per-pair term of `_connectivity_loss` (line 137), exactly as written
in the source: `-pair[0] * log(pair[1]) - (1 - pair[0]) * log(1 - pair[0])`. -/
noncomputable def pairLoss (p : ℝ × ℝ) : ℝ :=
  -p.1 * Real.log p.2 - (1 - p.1) * Real.log (1 - p.1)

/-- `mean_all_starts` (lines 130-140): for each group with at least one pair,
add the mean pair loss of the group. -/
noncomputable def meanAllStarts (groups : List (List ℝ)) : ℝ :=
  groups.foldl
    (fun acc g =>
      let pl := pairsOf g
      if 0 < pl.length then acc + (pl.map pairLoss).sum / pl.length else acc)
    0

/-- `PGExplainer._connectivity_loss` (lines 115-145) with the connectivity
coefficient already extracted.  Python raises on `graph[0][0]` when the edge
list is empty and on `mean_all_starts / len(total_mask_score)` when no group
was collected; both faults are `none`. -/
noncomputable def connectivity_loss (conn_reg : ℝ) (sources : List ℕ)
    (mask : List ℝ) : Option ℝ :=
  match sources with
  | [] => none
  | _ :: _ =>
    let groups := connGroups sources mask
    if groups.length = 0 then none
    else some (conn_reg * (meanAllStarts groups / groups.length))

/-- `self.reg_coefs[2]` (line 116) followed by the loss body: reading past
the end of the coefficient tuple raises, hence `none`. -/
noncomputable def connectivity_loss_coefs (reg_coefs : List ℝ) (sources : List ℕ)
    (mask : List ℝ) : Option ℝ :=
  match reg_coefs.get? 2 with
  | none => none
  | some c => connectivity_loss c sources mask

/-- The data of one training example as consumed by the inner loop of
`PGExplainer.train` (lines 212-244). -/
structure ExampleData where
  masked_pred : List ℝ
  original_pred : List ℝ
  mask : List ℝ
  sources : List ℕ

/-- One example's contribution `cce_loss + size_loss + mask_ent_loss +
connectivity_loss` (lines 235-244).  `_loss` reads `reg_coefs[0]` and
`reg_coefs[1]`, `_connectivity_loss` reads `reg_coefs[2]`; a missing index
raises, hence `none`. -/
noncomputable def exampleLoss (d : ExampleData) (reg_coefs : List ℝ) : Option ℝ :=
  match reg_coefs.get? 0, reg_coefs.get? 1 with
  | some size_reg, some entropy_reg =>
    let t := loss_terms d.masked_pred (argmaxIdx d.original_pred) d.mask size_reg entropy_reg
    (connectivity_loss_coefs reg_coefs d.sources d.mask).map
      (fun conn => t.1 + t.2.1 + t.2.2 + conn)
  | _, _ => none

/-- One epoch of `PGExplainer.train` (lines 203-254): sweep the index set
accumulating `loss += cce + size + ent + conn`, then perform the single
`loss.backward(); optimizer.step()` — modelled by one application of the
abstract parameter update `step` to the accumulated scalar — and log
`loss / len(indices)`.  Returns `none` when some example faults. -/
noncomputable def trainEpoch {P : Type} (step : P → ℝ → P) (reg_coefs : List ℝ)
    (data : ℕ → ExampleData) (indices : List ℕ) (p : P) : Option (P × ℝ) :=
  (indices.foldlM (fun acc n => (exampleLoss (data n) reg_coefs).map (fun l => acc + l)) 0).map
    (fun total => (step p total, total / (indices.length : ℝ)))

/-- The temperature schedule of `PGExplainer.train` (line 189):
`temp[0] * ((temp[1] / temp[0]) ** (e / epochs))`. -/
noncomputable def tempSchedule (t0 t1 : ℝ) (epochs : ℕ) (e : ℕ) : ℝ :=
  t0 * (t1 / t0) ^ ((e : ℝ) / (epochs : ℝ))

/-- Modelled from the spec: the helper `index_edge` lives in
`ExplanationEvaluation.utils.graph`, which is not under `src/`; section 4.6
of the spec says scattered weights are "positioned by each edge's index
within the edge-list ordering", so `index_edge` returns the index of the
given endpoint pair in the edge list. -/
def index_edge (edges : List (ℕ × ℕ)) (pair : ℕ × ℕ) : ℕ :=
  edges.findIdx (fun e => e == pair)

/-- The scatter loop of `PGExplainer.explain` (lines 284-288): a zero vector
of length `graph.size(1)`, written at `index_edge(graph, graph.T[i])` with
`mask[i]` for every `i`. -/
noncomputable def scatterWeights (edges : List (ℕ × ℕ)) (mask : List ℝ) : List ℝ :=
  (List.range mask.length).foldl
    (fun w i => w.set (index_edge edges (edges.getD i (0, 0))) (mask.getD i 0))
    (List.replicate edges.length 0)

/-- `PGExplainer.explain` (lines 262-290), parameterized by the trained mask
predictor `mlp`, the node embeddings, and the edge list of the (sub)graph
associated with the queried index.  `noise` stands for the state of the
random source at call time; inference-mode sampling never reads it. -/
noncomputable def explainFn (isNode : Bool) (mlp : List ℝ → ℝ)
    (embeds : List (List ℝ)) (rows cols : List ℕ) (index : ℕ)
    (noise : List ℝ) : (List ℕ × List ℕ) × List ℝ :=
  let input_expl := create_explainer_input isNode rows cols embeds index
  let sampling_weights := input_expl.map mlp
  let mask := sample_graph sampling_weights 1.0 0.0 noise false
  ((rows, cols), scatterWeights (rows.zip cols) mask)

theorem sigmoid_pos (x : ℝ) : 0 < sigmoid x := by
  unfold sigmoid
  positivity

theorem sigmoid_lt_one (x : ℝ) : sigmoid x < 1 := by
  unfold sigmoid
  rw [div_lt_one (by positivity)]
  linarith [Real.exp_pos (-x)]

/-- C7: in inference mode (`training=False`) the sampler returns the
elementwise sigmoid of the logits with no noise, and every entry of the
returned mask lies strictly between 0 and 1; the output depends only on the
logits (the noise argument is never read). -/
theorem sample_graph_inference_sigmoid_bounds (ws : List ℝ) (t b : ℝ) (noise : List ℝ) :
    sample_graph ws t b noise false = ws.map sigmoid ∧
    ∀ x ∈ sample_graph ws t b noise false, 0 < x ∧ x < 1 := by
  refine ⟨rfl, ?_⟩
  intro x hx
  rw [show sample_graph ws t b noise false = ws.map sigmoid from rfl] at hx
  obtain ⟨w, _, rfl⟩ := List.mem_map.mp hx
  exact ⟨sigmoid_pos w, sigmoid_lt_one w⟩

/-- Witness for C7 at the concrete logit vector `[0]`. -/
theorem sample_graph_inference_sigmoid_bounds_witness :
    sigmoid 0 ∈ sample_graph [(0 : ℝ)] 1 0 [] false ∧
    0 < sigmoid 0 ∧ sigmoid 0 < 1 := by
  have hmem : sigmoid 0 ∈ sample_graph [(0 : ℝ)] 1 0 [] false := by
    simp [sample_graph]
  exact ⟨hmem, (sample_graph_inference_sigmoid_bounds [(0 : ℝ)] 1 0 []).2 _ hmem⟩

/-- C8: `explain` is deterministic — its output does not depend on the state
of the random source, so two calls with the same index on the same trained,
unchanged predictor, embeddings and graph return identical
(edge list, weight vector) pairs. -/
theorem explainFn_noise_independent (isNode : Bool) (mlp : List ℝ → ℝ)
    (embeds : List (List ℝ)) (rows cols : List ℕ) (index : ℕ)
    (noise1 noise2 : List ℝ) :
    explainFn isNode mlp embeds rows cols index noise1 =
      explainFn isNode mlp embeds rows cols index noise2 := rfl

/-- C10: the temperature schedule is geometric in the epoch fraction; with
`temp = (5.0, 2.0)` and `epochs = 10` the epoch-0 temperature is exactly 5,
the temperature strictly decreases over epochs `0..9`, stays strictly above
the limit value 2 on that range, and the schedule's value at the (exclusive)
endpoint `e = 10` is exactly 2. -/
theorem tempSchedule_geometric :
    tempSchedule 5 2 10 0 = 5 ∧
    (∀ e e2 : ℕ, e < e2 → e2 ≤ 9 → tempSchedule 5 2 10 e2 < tempSchedule 5 2 10 e) ∧
    (∀ e : ℕ, e ≤ 9 → 2 < tempSchedule 5 2 10 e) ∧
    tempSchedule 5 2 10 10 = 2 := by
  have h0 : (0 : ℝ) < 2 / 5 := by norm_num
  have h1 : (2 : ℝ) / 5 < 1 := by norm_num
  refine ⟨?_, ?_, ?_, ?_⟩
  · unfold tempSchedule
    norm_num
  · intro e e2 h _
    unfold tempSchedule
    have hexp : (e : ℝ) / ((10 : ℕ) : ℝ) < (e2 : ℝ) / ((10 : ℕ) : ℝ) := by
      rw [div_lt_div_iff_of_pos_right (by norm_num)]
      exact_mod_cast h
    have := Real.rpow_lt_rpow_of_exponent_gt h0 h1 hexp
    nlinarith [this]
  · intro e he
    unfold tempSchedule
    have hexp : (e : ℝ) / ((10 : ℕ) : ℝ) < 1 := by
      rw [div_lt_one (by norm_num)]
      have he10 : e < 10 := by omega
      exact_mod_cast he10
    have h2 := Real.rpow_lt_rpow_of_exponent_gt h0 h1 hexp
    rw [Real.rpow_one] at h2
    nlinarith [h2]
  · unfold tempSchedule
    norm_num

/-- Witness for C10: the strict decrease from epoch 0 to epoch 1. -/
theorem tempSchedule_geometric_witness :
    (0 < 1 ∧ 1 ≤ 9) ∧ tempSchedule 5 2 10 1 < tempSchedule 5 2 10 0 :=
  ⟨⟨by decide, by decide⟩, tempSchedule_geometric.2.1 0 1 (by decide) (by decide)⟩

/-- C2: in training mode the sampler is an explicit function of
(logits, temperature, bias, noise): with `b = bias + 0.0001`, the `i`-th
transformed noise value `epsOf bias uᵢ` lies strictly inside `(b, 1-b)`
whenever the raw uniform draw `uᵢ` lies in `(0,1)`, and the `i`-th output is
exactly `sigmoid ((log eps - log (1 - eps) + logitᵢ) / temperature)`; in
particular fixing the noise fixes the output. -/
theorem sample_graph_training_formula (ws us : List ℝ) (t b : ℝ) (i : ℕ)
    (hi : i < ws.length) (hlen : us.length = ws.length)
    (hb : b + 0.0001 < 1 / 2) (hu0 : 0 < us.getD i 0) (hu1 : us.getD i 0 < 1) :
    (b + 0.0001) < epsOf b (us.getD i 0) ∧
    epsOf b (us.getD i 0) < 1 - (b + 0.0001) ∧
    (sample_graph ws t b us true).get? i =
      some (sigmoid ((Real.log (epsOf b (us.getD i 0)) -
        Real.log (1 - epsOf b (us.getD i 0)) + ws.getD i 0) / t)) := by
  have hiu : i < us.length := by omega
  refine ⟨?_, ?_, ?_⟩
  · unfold epsOf
    nlinarith [mul_pos (show (0 : ℝ) < 1 - 2 * (b + 0.0001) by linarith)
      (show (0 : ℝ) < 1 - us.getD i 0 by linarith)]
  · unfold epsOf
    nlinarith [mul_pos (show (0 : ℝ) < 1 - 2 * (b + 0.0001) by linarith) hu0]
  · have h1 : us.get? i = some (us.getD i 0) := by
      rw [List.get?_eq_getElem?, List.getElem?_eq_getElem hiu,
        List.getD_eq_getElem us 0 hiu]
    have h2 : ws.get? i = some (ws.getD i 0) := by
      rw [List.get?_eq_getElem?, List.getElem?_eq_getElem hi,
        List.getD_eq_getElem ws 0 hi]
    simp only [sample_graph, if_true, List.get?_map, List.get?_zipWith', h1, h2,
      Option.map_some', Option.some_bind]

/-- Witness for C2 at logits `[0]`, noise `[1/2]`, temperature 1, bias 0. -/
theorem sample_graph_training_formula_witness :
    (0 < ([(1 : ℝ) / 2].getD 0 0) ∧ [(1 : ℝ) / 2].getD 0 0 < 1 ∧
      (0 : ℝ) + 0.0001 < 1 / 2) ∧
    ((0 : ℝ) + 0.0001) < epsOf 0 ([(1 : ℝ) / 2].getD 0 0) ∧
    epsOf 0 ([(1 : ℝ) / 2].getD 0 0) < 1 - ((0 : ℝ) + 0.0001) ∧
    (sample_graph [(0 : ℝ)] 1 0 [(1 : ℝ) / 2] true).get? 0 =
      some (sigmoid ((Real.log (epsOf 0 ([(1 : ℝ) / 2].getD 0 0)) -
        Real.log (1 - epsOf 0 ([(1 : ℝ) / 2].getD 0 0)) + [(0 : ℝ)].getD 0 0) / 1)) :=
  ⟨⟨by norm_num [List.getD], by norm_num [List.getD], by norm_num⟩,
    sample_graph_training_formula [(0 : ℝ)] [(1 : ℝ) / 2] 1 0 0 (by simp) (by simp)
      (by norm_num) (by norm_num [List.getD]) (by norm_num [List.getD])⟩

theorem connGroupsAux_chain (l : List (ℕ × ℝ)) : ∀ (sn : ℕ) (m : ℝ)
    (acc : List (List ℝ)), List.Chain (· ≠ ·) sn (l.map Prod.fst) →
    connGroupsAux sn [m] acc l =
      acc ++ ((m :: l.map Prod.snd).dropLast.map (fun x => [x])) := by
  induction l with
  | nil => intro sn m acc _; simp [connGroupsAux]
  | cons p rest ih =>
    intro sn m acc hch
    obtain ⟨s, m2⟩ := p
    rw [List.map_cons] at hch
    cases hch with
    | cons hne hch2 =>
      simp only [connGroupsAux, if_pos hne]
      rw [ih s m2 (acc ++ [[m]]) hch2, List.map_cons,
        List.dropLast_cons₂, List.map_cons]
      simp [List.append_assoc]

theorem meanAllStarts_no_pairs (groups : List (List ℝ))
    (h : ∀ g ∈ groups, pairsOf g = []) : meanAllStarts groups = 0 := by
  suffices H : ∀ acc : ℝ, groups.foldl
      (fun acc g =>
        let pl := pairsOf g
        if 0 < pl.length then acc + (pl.map pairLoss).sum / pl.length else acc)
      acc = acc from H 0
  induction groups with
  | nil => intro acc; rfl
  | cons g rest ih =>
    intro acc
    rw [List.foldl_cons]
    have hg : pairsOf g = [] := h g (by simp)
    simp only [hg, List.length_nil, lt_irrefl, if_false]
    exact ih (fun g2 hg2 => h g2 (by simp [hg2])) acc

/-- Amended C1: for every mask vector and every graph in which each source
node has exactly one outgoing edge, PROVIDED the graph has at least two
edges, the connectivity loss is well-defined and contributes exactly zero
(every group is a singleton, so no pairwise term and no divide-by-zero
arises).  With a single edge the final division faults (see the
counterexample). -/
theorem connectivity_loss_unique_sources (c : ℝ) (sources : List ℕ)
    (mask : List ℝ) (hnd : sources.Nodup) (h2 : 2 ≤ sources.length)
    (hlen : mask.length = sources.length) :
    connectivity_loss c sources mask = some 0 := by
  match sources, mask with
  | [], _ => simp at h2
  | s0 :: rest, [] => simp at hlen
  | s0 :: rest, m0 :: mrest =>
    have hlen2 : mrest.length = rest.length := by simpa using hlen
    have hch : List.Chain (· ≠ ·) s0 rest := hnd.chain'
    have hchz : List.Chain (· ≠ ·) s0 ((rest.zip mrest).map Prod.fst) := by
      rw [List.map_fst_zip rest mrest (by omega)]
      exact hch
    have hgroups : connGroups (s0 :: rest) (m0 :: mrest) =
        ((m0 :: mrest).dropLast.map (fun x => [x])) := by
      show connGroupsAux s0 [] [] (((s0 :: rest).zip (m0 :: mrest))) = _
      rw [List.zip_cons_cons]
      simp only [connGroupsAux, ne_eq, not_true_eq_false, if_false,
        List.nil_append]
      rw [connGroupsAux_chain _ _ _ _ hchz,
        List.map_snd_zip rest mrest (by omega)]
      simp
    have hsing : ∀ g ∈ connGroups (s0 :: rest) (m0 :: mrest), pairsOf g = [] := by
      rw [hgroups]
      intro g hg
      obtain ⟨x, _, rfl⟩ := List.mem_map.mp hg
      simp [pairsOf]
    have hlen3 : (connGroups (s0 :: rest) (m0 :: mrest)).length = mrest.length := by
      rw [hgroups]
      simp
    have hr : 1 ≤ mrest.length := by
      simp only [List.length_cons] at h2
      omega
    have hne : ¬ (connGroups (s0 :: rest) (m0 :: mrest)).length = 0 := by
      omega
    simp only [connectivity_loss, if_neg hne, meanAllStarts_no_pairs _ hsing]
    simp

/-- Witness for the amended C1 at the two-edge graph `0 → 1, 1 → 0`. -/
theorem connectivity_loss_unique_sources_witness :
    (([0, 1] : List ℕ).Nodup ∧ 2 ≤ ([0, 1] : List ℕ).length ∧
      ([(1 : ℝ) / 2, 1 / 2]).length = ([0, 1] : List ℕ).length) ∧
    connectivity_loss 5 [0, 1] [(1 : ℝ) / 2, 1 / 2] = some 0 :=
  ⟨⟨by decide, by decide, by simp⟩,
    connectivity_loss_unique_sources 5 [0, 1] [(1 : ℝ) / 2, 1 / 2]
      (by decide) (by decide) (by simp)⟩

/-- Counterexample to C1 as stated: in the one-edge graph consisting of the
single self-loop `0 → 0`, every node has exactly one outgoing edge, yet
`_connectivity_loss` collects no group and the final
`mean_all_starts / len(total_mask_score)` is a division by zero
(a Python `ZeroDivisionError`), modelled as `none` — the loss is not
well-defined there. -/
theorem connectivity_loss_single_edge_fault :
    connectivity_loss 1 [0] [(1 : ℝ) / 2] = none := rfl

theorem connectivity_loss_zero_coef (sources : List ℕ) (mask : List ℝ)
    (h : (connectivity_loss 0 sources mask).isSome) :
    connectivity_loss 0 sources mask = some 0 := by
  match sources with
  | [] => simp [connectivity_loss] at h
  | s0 :: rest =>
    simp only [connectivity_loss] at h ⊢
    by_cases hg : (connGroups (s0 :: rest) mask).length = 0
    · simp [hg] at h
    · simp [hg]

/-- C9: when the size, entropy and connectivity coefficients are all zero,
the per-example training loss reduces exactly to the fidelity term, the
cross-entropy between the masked prediction and the argmax class of the
original prediction (whenever the loss computation completes at all). -/
theorem exampleLoss_zero_coefs (d : ExampleData) (rest : List ℝ)
    (h : (connectivity_loss 0 d.sources d.mask).isSome) :
    exampleLoss d ((0 : ℝ) :: 0 :: 0 :: rest) =
      some (cross_entropy d.masked_pred (argmaxIdx d.original_pred)) := by
  have hc := connectivity_loss_zero_coef d.sources d.mask h
  simp only [exampleLoss, connectivity_loss_coefs, List.get?_cons_zero,
    List.get?_cons_succ, hc, loss_terms]
  simp

/-- Witness for C9 on the two-edge graph `0 → 1, 1 → 0`. -/
theorem exampleLoss_zero_coefs_witness :
    (connectivity_loss 0 ([0, 1] : List ℕ) [(1 : ℝ) / 2, 1 / 2]).isSome = true ∧
    exampleLoss ⟨[0], [0], [(1 : ℝ) / 2, 1 / 2], [0, 1]⟩ ((0 : ℝ) :: 0 :: 0 :: []) =
      some (cross_entropy [(0 : ℝ)] (argmaxIdx [(0 : ℝ)])) :=
  ⟨rfl, exampleLoss_zero_coefs ⟨[0], [0], [(1 : ℝ) / 2, 1 / 2], [0, 1]⟩ [] rfl⟩

theorem foldlM_exampleLoss_sum (exL : ℕ → Option ℝ) (f : ℕ → ℝ) :
    ∀ (indices : List ℕ), (∀ n ∈ indices, exL n = some (f n)) → ∀ acc : ℝ,
      indices.foldlM (fun acc n => (exL n).map (fun l => acc + l)) acc =
        some (acc + (indices.map f).sum) := by
  intro indices
  induction indices with
  | nil => intro _ acc; simp
  | cons n rest ih =>
    intro h acc
    have hn : exL n = some (f n) := h n (by simp)
    simp only [List.foldlM_cons, hn, Option.map_some', Option.bind_eq_bind,
      Option.some_bind]
    rw [ih (fun x hx => h x (by simp [hx])) (acc + f n)]
    simp [add_assoc]

/-- C3: one training epoch sums the per-example losses over the whole index
set into a single scalar, then performs exactly one parameter update — one
application of the abstract `step` (the single `backward` plus `optimizer.step`)
to the un-averaged sum; the division by the index count appears only in the
logged value (the second component). -/
theorem trainEpoch_single_step_sum {P : Type} (step : P → ℝ → P)
    (reg_coefs : List ℝ) (data : ℕ → ExampleData) (indices : List ℕ)
    (p : P) (f : ℕ → ℝ)
    (h : ∀ n ∈ indices, exampleLoss (data n) reg_coefs = some (f n)) :
    trainEpoch step reg_coefs data indices p =
      some (step p ((indices.map f).sum),
        (indices.map f).sum / (indices.length : ℝ)) := by
  unfold trainEpoch
  rw [foldlM_exampleLoss_sum (fun n => exampleLoss (data n) reg_coefs) f indices h 0]
  simp

theorem exampleLoss_zero_example :
    exampleLoss ⟨[0], [0], [(1 : ℝ) / 2, 1 / 2], [0, 1]⟩ [0, 0, 0] = some 0 := by
  have hconn : connectivity_loss 0 ([0, 1] : List ℕ) [(1 : ℝ) / 2, 1 / 2] = some 0 :=
    connectivity_loss_zero_coef _ _ rfl
  have hget : List.getD [(0 : ℝ)] (argmaxIdx [(0 : ℝ)]) 0 = 0 := by
    rcases hk : argmaxIdx [(0 : ℝ)] with _ | k <;> simp [List.getD]
  have hcce : cross_entropy [(0 : ℝ)] (argmaxIdx [(0 : ℝ)]) = 0 := by
    simp [cross_entropy, hget, Real.exp_zero]
  simp only [exampleLoss, connectivity_loss_coefs, List.get?_cons_zero,
    List.get?_cons_succ, hconn, loss_terms]
  simp [hcce]

/-- Witness for C3: a two-index epoch over a concrete example whose loss is
zero; the parameter update receives the sum and the logged value is the
sum divided by the index count. -/
theorem trainEpoch_single_step_sum_witness :
    (∀ n ∈ ([0, 1] : List ℕ),
      exampleLoss ((fun _ => (⟨[0], [0], [(1 : ℝ) / 2, 1 / 2], [0, 1]⟩ : ExampleData)) n)
          [0, 0, 0] = some ((fun _ => (0 : ℝ)) n)) ∧
    trainEpoch (fun (p l : ℝ) => p + l) [0, 0, 0]
        (fun _ => ⟨[0], [0], [(1 : ℝ) / 2, 1 / 2], [0, 1]⟩) [0, 1] 0 =
      some ((fun (p l : ℝ) => p + l) 0 ((([0, 1] : List ℕ).map (fun _ => (0 : ℝ))).sum),
        (([0, 1] : List ℕ).map (fun _ => (0 : ℝ))).sum / ((([0, 1] : List ℕ).length : ℝ))) := by
  have h : ∀ n ∈ ([0, 1] : List ℕ),
      exampleLoss ((fun _ => (⟨[0], [0], [(1 : ℝ) / 2, 1 / 2], [0, 1]⟩ : ExampleData)) n)
        [0, 0, 0] = some ((fun _ => (0 : ℝ)) n) := fun n _ => exampleLoss_zero_example
  exact ⟨h, trainEpoch_single_step_sum (fun (p l : ℝ) => p + l) [0, 0, 0]
    (fun _ => ⟨[0], [0], [(1 : ℝ) / 2, 1 / 2], [0, 1]⟩) [0, 1] 0 (fun _ => (0 : ℝ)) h⟩

/-- C5: training faults whenever `reg_coefs` has fewer than three elements —
`_loss` reads `reg_coefs[0]`/`reg_coefs[1]` and `_connectivity_loss` reads
`reg_coefs[2]`, so with the constructor default `(0.05, 1.0)` every epoch
over a non-empty index set raises at the first example; a successful epoch
therefore requires at least three coefficients. -/
theorem trainEpoch_short_reg_coefs {P : Type} (step : P → ℝ → P)
    (reg_coefs : List ℝ) (data : ℕ → ExampleData) (indices : List ℕ) (p : P)
    (hshort : reg_coefs.length < 3) (hne : indices ≠ []) :
    trainEpoch step reg_coefs data indices p = none := by
  match indices with
  | [] => exact absurd rfl hne
  | n :: rest =>
    have hex : exampleLoss (data n) reg_coefs = none := by
      rcases reg_coefs with _ | ⟨a, _ | ⟨b, _ | ⟨c, r⟩⟩⟩
      · rfl
      · rfl
      · rfl
      · simp only [List.length_cons] at hshort
        omega
    simp only [trainEpoch, List.foldlM_cons, hex, Option.map_none',
      Option.bind_eq_bind, Option.none_bind]

/-- Witness for C5 with the constructor's default coefficients `(0.05, 1.0)`
and the one-element index set `[0]`. -/
theorem trainEpoch_short_reg_coefs_witness :
    (([(0.05 : ℝ), 1.0].length < 3) ∧ ([0] : List ℕ) ≠ []) ∧
    trainEpoch (fun (p l : ℝ) => p + l) [(0.05 : ℝ), 1.0]
        (fun _ => ⟨[0], [0], [(1 : ℝ) / 2, 1 / 2], [0, 1]⟩) [0] 0 = none :=
  ⟨⟨by simp, by simp⟩, trainEpoch_short_reg_coefs (fun (p l : ℝ) => p + l)
    [(0.05 : ℝ), 1.0] (fun _ => ⟨[0], [0], [(1 : ℝ) / 2, 1 / 2], [0, 1]⟩) [0] 0
    (by simp) (by simp)⟩

theorem mem_zipWith_elim {α β γ : Type} {f : α → β → γ} :
    ∀ {as : List α} {bs : List β} {x : γ}, x ∈ List.zipWith f as bs →
      ∃ a b, a ∈ as ∧ b ∈ bs ∧ x = f a b := by
  intro as
  induction as with
  | nil => intro bs x hx; simp at hx
  | cons a as2 ih =>
    intro bs x hx
    cases bs with
    | nil => simp at hx
    | cons b bs2 =>
      rw [List.zipWith_cons_cons] at hx
      rcases List.mem_cons.mp hx with h | h
      · exact ⟨a, b, by simp, by simp, h⟩
      · obtain ⟨a2, b2, ha, hb, rfl⟩ := ih h
        exact ⟨a2, b2, by simp [ha], by simp [hb], rfl⟩

theorem getD_embeds_length {embeds : List (List ℝ)} {d r : ℕ}
    (hd : ∀ e ∈ embeds, e.length = d) (hr : r < embeds.length) :
    (embeds.getD r []).length = d := by
  rw [List.getD_eq_getElem embeds [] hr]
  exact hd _ (List.getElem_mem hr)

/-- C6: the explainer-input builder returns one row per edge; for graph-kind
tasks each row is the source embedding followed by the target embedding
(width `2*d`), for node-kind tasks each row additionally ends with the
explained node's embedding (width `3*d`), the same suffix on every row. -/
theorem create_explainer_input_shape (rows cols : List ℕ)
    (embeds : List (List ℝ)) (node_id : ℕ) (d : ℕ)
    (hlen : rows.length = cols.length) (hd : ∀ e ∈ embeds, e.length = d)
    (hr : ∀ r ∈ rows, r < embeds.length) (hc : ∀ c2 ∈ cols, c2 < embeds.length)
    (hn : node_id < embeds.length) :
    ((create_explainer_input false rows cols embeds node_id).length = rows.length ∧
      ∀ v ∈ create_explainer_input false rows cols embeds node_id,
        v.length = 2 * d) ∧
    ((create_explainer_input true rows cols embeds node_id).length = rows.length ∧
      ∀ v ∈ create_explainer_input true rows cols embeds node_id,
        v.length = 3 * d ∧ v.drop (2 * d) = embeds.getD node_id []) := by
  refine ⟨⟨?_, ?_⟩, ⟨?_, ?_⟩⟩
  · simp [create_explainer_input, hlen]
  · intro v hv
    simp only [create_explainer_input, if_false, Bool.false_eq_true] at hv
    obtain ⟨a, b, ha, hb, rfl⟩ := mem_zipWith_elim hv
    obtain ⟨r, hrm, rfl⟩ := List.mem_map.mp ha
    obtain ⟨c2, hcm, rfl⟩ := List.mem_map.mp hb
    rw [List.length_append, getD_embeds_length hd (hr r hrm),
      getD_embeds_length hd (hc c2 hcm)]
    ring
  · simp [create_explainer_input, hlen]
  · intro v hv
    simp only [create_explainer_input, if_true] at hv
    obtain ⟨a, b, ha, hb, rfl⟩ := mem_zipWith_elim hv
    obtain ⟨r, hrm, rfl⟩ := List.mem_map.mp ha
    obtain ⟨c2, hcm, rfl⟩ := List.mem_map.mp hb
    have hab : (embeds.getD r [] ++ embeds.getD c2 []).length = 2 * d := by
      rw [List.length_append, getD_embeds_length hd (hr r hrm),
        getD_embeds_length hd (hc c2 hcm)]
      ring
    constructor
    · rw [List.append_assoc, List.length_append, List.length_append,
        getD_embeds_length hd (hr r hrm), getD_embeds_length hd (hc c2 hcm),
        getD_embeds_length hd hn]
      ring
    · rw [← hab, List.drop_left]

/-- Witness for C6: two nodes with embedding size 2, one edge `0 → 1`,
explained node 1. -/
theorem create_explainer_input_shape_witness :
    (([0] : List ℕ).length = ([1] : List ℕ).length ∧
      (∀ e ∈ [[(1 : ℝ), 2], [3, 4]], e.length = 2) ∧
      (∀ r ∈ ([0] : List ℕ), r < 2) ∧ (∀ c2 ∈ ([1] : List ℕ), c2 < 2) ∧ 1 < 2) ∧
    ((create_explainer_input false [0] [1] [[(1 : ℝ), 2], [3, 4]] 1).length = 1 ∧
      ∀ v ∈ create_explainer_input false [0] [1] [[(1 : ℝ), 2], [3, 4]] 1,
        v.length = 2 * 2) ∧
    ((create_explainer_input true [0] [1] [[(1 : ℝ), 2], [3, 4]] 1).length = 1 ∧
      ∀ v ∈ create_explainer_input true [0] [1] [[(1 : ℝ), 2], [3, 4]] 1,
        v.length = 3 * 2 ∧ v.drop (2 * 2) = [[(1 : ℝ), 2], [3, 4]].getD 1 []) := by
  have hd : ∀ e ∈ [[(1 : ℝ), 2], [3, 4]], e.length = 2 := by
    intro e he
    fin_cases he <;> rfl
  exact ⟨⟨rfl, hd, by decide, by decide, by decide⟩,
    create_explainer_input_shape [0] [1] [[(1 : ℝ), 2], [3, 4]] 1 2 rfl hd
      (by decide) (by decide) (by decide)⟩

theorem index_edge_self : ∀ (edges : List (ℕ × ℕ)) (i : ℕ), edges.Nodup →
    i < edges.length → index_edge edges (edges.getD i (0, 0)) = i := by
  intro edges
  induction edges with
  | nil => intro i _ hi; simp at hi
  | cons e rest ih =>
    intro i hnd hi
    match i with
    | 0 =>
      show index_edge (e :: rest) e = 0
      unfold index_edge
      rw [List.findIdx_cons]
      simp
    | k + 1 =>
      have hk : k < rest.length := by simpa using hi
      have hmem : rest.getD k (0, 0) ∈ rest := by
        rw [List.getD_eq_getElem rest (0, 0) hk]
        exact List.getElem_mem hk
      have hne : e ≠ rest.getD k (0, 0) := by
        intro h
        exact (List.nodup_cons.mp hnd).1 (h ▸ hmem)
      have hrec := ih k (List.nodup_cons.mp hnd).2 hk
      show index_edge (e :: rest) (rest.getD k (0, 0)) = k + 1
      unfold index_edge at hrec ⊢
      rw [List.findIdx_cons, beq_eq_false_iff_ne.mpr hne]
      show List.findIdx (fun a => a == rest.getD k (0, 0)) rest + 1 = k + 1
      rw [hrec]

theorem foldl_set_range (m : List ℝ) :
    ∀ (n : ℕ) (w : List ℝ), n ≤ m.length → m.length = w.length →
      (List.range n).foldl (fun w2 i => w2.set i (m.getD i 0)) w =
        m.take n ++ w.drop n := by
  intro n
  induction n with
  | zero => intro w _ _; simp
  | succ n ih =>
    intro w hn hw
    rw [List.range_succ, List.foldl_append, ih w (by omega) hw]
    simp only [List.foldl_cons, List.foldl_nil]
    have hnm : n < m.length := by omega
    have hA : (m.take n).length = n := by rw [List.length_take]; omega
    have hlen : n < (m.take n ++ w.drop n).length := by
      rw [List.length_append, List.length_take, List.length_drop]
      omega
    rw [List.set_eq_take_cons_drop _ hlen]
    have h1 : (m.take n ++ w.drop n).take n = m.take n := List.take_left' hA
    have h2 : (m.take n ++ w.drop n).drop (n + 1) = w.drop (n + 1) := by
      calc (m.take n ++ w.drop n).drop (n + 1)
          = (m.take n ++ w.drop n).drop ((m.take n).length + 1) := by rw [hA]
        _ = (w.drop n).drop 1 := List.drop_append 1
        _ = w.drop (n + 1) := List.drop_drop 1 n w
    rw [h1, h2, List.getD_eq_getElem m 0 hnm,
      show m.take (n + 1) = m.take n ++ [m[n]] from by
        rw [List.take_succ, List.getElem?_eq_getElem hnm]; rfl]
    simp only [List.append_assoc, List.cons_append, List.nil_append]

theorem scatterWeights_nodup (edges : List (ℕ × ℕ)) (mask : List ℝ)
    (hnd : edges.Nodup) (hlen : mask.length = edges.length) :
    scatterWeights edges mask = mask := by
  unfold scatterWeights
  rw [List.foldl_ext _ (fun w2 i => w2.set i (mask.getD i 0)) _
    (fun w2 i hi => by
      rw [index_edge_self edges i hnd (by rw [← hlen]; exact List.mem_range.mp hi)])]
  rw [foldl_set_range mask mask.length (List.replicate edges.length 0) le_rfl
    (by simp [hlen])]
  simp [hlen]

/-- Amended C4: for every graph whose edge list has no duplicate edge,
`explain` returns a weight vector with exactly `E` entries whose `i`-th entry
is the inference-mode sampler value — the sigmoid of the `i`-th logit — for
the `i`-th edge of the returned edge list: the scatter reproduces the
deterministically computed mask exactly.  (With a duplicated edge the later
occurrence keeps weight 0 — see the counterexample.) -/
theorem explainFn_weights (isNode : Bool) (mlp : List ℝ → ℝ)
    (embeds : List (List ℝ)) (rows cols : List ℕ) (index : ℕ) (noise : List ℝ)
    (hlen : rows.length = cols.length) (hnd : (rows.zip cols).Nodup) :
    ((explainFn isNode mlp embeds rows cols index noise).2).length = rows.length ∧
    (explainFn isNode mlp embeds rows cols index noise).2 =
      (create_explainer_input isNode rows cols embeds index).map
        (fun v => sigmoid (mlp v)) := by
  have hinput : (create_explainer_input isNode rows cols embeds index).length =
      rows.length := by
    cases isNode <;> simp [create_explainer_input, hlen]
  have hmask : sample_graph
      ((create_explainer_input isNode rows cols embeds index).map mlp) 1.0 0.0
      noise false =
      (create_explainer_input isNode rows cols embeds index).map
        (fun v => sigmoid (mlp v)) := by
    show List.map sigmoid _ = _
    rw [List.map_map]
    rfl
  have hmlen : ((create_explainer_input isNode rows cols embeds index).map
      (fun v => sigmoid (mlp v))).length = (rows.zip cols).length := by
    rw [List.length_map, hinput, List.length_zip, hlen, Nat.min_self]
  have hscatter := scatterWeights_nodup (rows.zip cols)
    ((create_explainer_input isNode rows cols embeds index).map
      (fun v => sigmoid (mlp v))) hnd hmlen
  constructor
  · show (scatterWeights (rows.zip cols) _).length = rows.length
    rw [hmask, hscatter, List.length_map, hinput]
  · show scatterWeights (rows.zip cols) _ = _
    rw [hmask, hscatter]

/-- Witness for the amended C4: two distinct edges `0 → 1` and `0 → 2`. -/
theorem explainFn_weights_witness :
    (([0, 0] : List ℕ).length = ([1, 2] : List ℕ).length ∧
      (([0, 0] : List ℕ).zip [1, 2]).Nodup) ∧
    ((explainFn false (fun _ => (0 : ℝ)) [] [0, 0] [1, 2] 0 []).2).length =
      ([0, 0] : List ℕ).length ∧
    (explainFn false (fun _ => (0 : ℝ)) [] [0, 0] [1, 2] 0 []).2 =
      (create_explainer_input false [0, 0] [1, 2] [] 0).map
        (fun v => sigmoid ((fun _ => (0 : ℝ)) v)) :=
  ⟨⟨rfl, by decide⟩, explainFn_weights false (fun _ => (0 : ℝ)) [] [0, 0] [1, 2]
    0 [] rfl (by decide)⟩

/-- Counterexample to C4 as stated: duplicate the self-loop edge `0 → 0`.
Both scatter writes land on index 0 (the first occurrence found by
`index_edge`), so entry 1 of the returned weight vector is 0 — not the
sigmoid of edge 1's logit, which is `sigmoid 0 > 0`. -/
theorem explainFn_duplicate_edge_cex :
    ((explainFn false (fun _ => (0 : ℝ)) [[0]] [0, 0] [0, 0] 0 []).2).getD 1 0 ≠
      sigmoid 0 := by
  have hval : ((explainFn false (fun _ => (0 : ℝ)) [[0]] [0, 0] [0, 0] 0 []).2).getD
      1 0 = 0 := by
    show (scatterWeights [(0, 0), (0, 0)] _).getD 1 0 = 0
    rw [show scatterWeights [(0, 0), (0, 0)]
        (sample_graph ((create_explainer_input false [0, 0] [0, 0] [[0]] 0).map
          (fun _ => (0 : ℝ))) 1.0 0.0 [] false) =
        [sigmoid 0, 0] from rfl]
    rfl
  rw [hval]
  exact fun h => absurd h.symm (ne_of_gt (sigmoid_pos 0))

end PGExplainer
